import Mathlib

/-!
Verification of the indicator pipeline and execution state machine of
`tv_style_alpaca_flip.py`.

The numeric model: pandas/numpy float series are embedded as lists of `F`,
an extended rational: `nan`, `inf`, `ninf` or a finite rational `fin q`.
The arithmetic on `F` mirrors the IEEE rules the script relies on
(`nan` propagates, `x/0` is `±inf` or `nan`, comparisons with `nan` are
false).  Rounding is the one aspect not modelled: all finite arithmetic is
exact rational arithmetic.
-/

/-- An extended rational mirroring a pandas float cell: not-a-number,
plus or minus infinity, or a finite value. -/
inductive F where
  | nan : F
  | inf : F
  | ninf : F
  | fin : ℚ → F
deriving DecidableEq

/-- IEEE-style negation. -/
def F.neg : F → F
  | .nan => .nan
  | .inf => .ninf
  | .ninf => .inf
  | .fin q => .fin (-q)

/-- IEEE-style addition: `nan` propagates, `inf + ninf = nan`. -/
def F.add : F → F → F
  | .nan, _ => .nan
  | _, .nan => .nan
  | .inf, .ninf => .nan
  | .ninf, .inf => .nan
  | .inf, _ => .inf
  | _, .inf => .inf
  | .ninf, _ => .ninf
  | _, .ninf => .ninf
  | .fin a, .fin b => .fin (a + b)

/-- IEEE-style subtraction. -/
def F.sub (x y : F) : F := x.add y.neg

/-- IEEE-style multiplication: `nan` propagates, `inf * 0 = nan`. -/
def F.mul : F → F → F
  | .nan, _ => .nan
  | _, .nan => .nan
  | .inf, .inf => .inf
  | .inf, .ninf => .ninf
  | .ninf, .inf => .ninf
  | .ninf, .ninf => .inf
  | .inf, .fin q => if 0 < q then .inf else if q < 0 then .ninf else .nan
  | .fin q, .inf => if 0 < q then .inf else if q < 0 then .ninf else .nan
  | .ninf, .fin q => if 0 < q then .ninf else if q < 0 then .inf else .nan
  | .fin q, .ninf => if 0 < q then .ninf else if q < 0 then .inf else .nan
  | .fin a, .fin b => .fin (a * b)

/-- IEEE-style division (rationals carry no signed zero, so zero divides as
positive zero): `q/0` is `inf`, `ninf` or `nan` by the sign of `q`,
`inf/inf = nan`, `q/inf = 0`. -/
def F.div : F → F → F
  | .nan, _ => .nan
  | _, .nan => .nan
  | .inf, .inf => .nan
  | .inf, .ninf => .nan
  | .ninf, .inf => .nan
  | .ninf, .ninf => .nan
  | .inf, .fin q => if q < 0 then .ninf else .inf
  | .ninf, .fin q => if q < 0 then .inf else .ninf
  | .fin _, .inf => .fin 0
  | .fin _, .ninf => .fin 0
  | .fin a, .fin b =>
      if b = 0 then (if 0 < a then .inf else if a < 0 then .ninf else .nan)
      else .fin (a / b)

/-- IEEE-style absolute value. -/
def F.abs : F → F
  | .nan => .nan
  | .inf => .inf
  | .ninf => .inf
  | .fin q => .fin |q|

/-- Strict greater-than as numpy/pandas evaluate it: any comparison with
`nan` is false. -/
def F.gtB : F → F → Bool
  | .nan, _ => false
  | _, .nan => false
  | .inf, .inf => false
  | .inf, _ => true
  | .ninf, _ => false
  | .fin _, .inf => false
  | .fin _, .ninf => true
  | .fin a, .fin b => if b < a then true else false

/-- Strict less-than, the mirror of `F.gtB`. -/
def F.ltB (x y : F) : Bool := F.gtB y x

/-- `Series.fillna(v)`: replace `nan` by the finite value `v`. -/
def F.fillna (v : ℚ) (x : F) : F := if x = F.nan then F.fin v else x

/-- `Series.clip(lower=0.0)`: `nan` stays `nan`, finite values are capped
below at 0, `ninf` becomes 0. -/
def F.clip0 : F → F
  | .nan => .nan
  | .inf => .inf
  | .ninf => .fin 0
  | .fin q => .fin (max q 0)

/-- Pairwise maximum as `DataFrame.max(axis=1)` computes it (skipna=True):
`nan` loses to any value, two values compare normally. -/
def F.maxsk : F → F → F
  | .nan, y => y
  | x, .nan => x
  | .inf, _ => .inf
  | _, .inf => .inf
  | .ninf, y => y
  | x, .ninf => x
  | .fin a, .fin b => .fin (max a b)

/-! Constructor-shaped evaluation lemmas for the `F` operations: these let
`simp`/`norm_num` run the pipeline on concrete inputs and drive the case
analyses of the symbolic proofs. -/

@[simp] theorem F.neg_nan : F.neg F.nan = F.nan := rfl
@[simp] theorem F.neg_inf : F.neg F.inf = F.ninf := rfl
@[simp] theorem F.neg_ninf : F.neg F.ninf = F.inf := rfl
@[simp] theorem F.neg_fin (q : ℚ) : F.neg (F.fin q) = F.fin (-q) := rfl

@[simp] theorem F.add_nan_left (x : F) : F.add F.nan x = F.nan := by cases x <;> rfl
@[simp] theorem F.add_nan_right (x : F) : F.add x F.nan = F.nan := by cases x <;> rfl
@[simp] theorem F.add_inf_inf : F.add F.inf F.inf = F.inf := rfl
@[simp] theorem F.add_inf_ninf : F.add F.inf F.ninf = F.nan := rfl
@[simp] theorem F.add_ninf_inf : F.add F.ninf F.inf = F.nan := rfl
@[simp] theorem F.add_ninf_ninf : F.add F.ninf F.ninf = F.ninf := rfl
@[simp] theorem F.add_inf_fin (q : ℚ) : F.add F.inf (F.fin q) = F.inf := rfl
@[simp] theorem F.add_fin_inf (q : ℚ) : F.add (F.fin q) F.inf = F.inf := rfl
@[simp] theorem F.add_ninf_fin (q : ℚ) : F.add F.ninf (F.fin q) = F.ninf := rfl
@[simp] theorem F.add_fin_ninf (q : ℚ) : F.add (F.fin q) F.ninf = F.ninf := rfl
@[simp] theorem F.add_fin_fin (a b : ℚ) : F.add (F.fin a) (F.fin b) = F.fin (a + b) := rfl

@[simp] theorem F.sub_nan_left (x : F) : F.sub F.nan x = F.nan := by cases x <;> rfl
@[simp] theorem F.sub_nan_right (x : F) : F.sub x F.nan = F.nan := by cases x <;> rfl
@[simp] theorem F.sub_inf_inf : F.sub F.inf F.inf = F.nan := rfl
@[simp] theorem F.sub_inf_ninf : F.sub F.inf F.ninf = F.inf := rfl
@[simp] theorem F.sub_ninf_inf : F.sub F.ninf F.inf = F.ninf := rfl
@[simp] theorem F.sub_ninf_ninf : F.sub F.ninf F.ninf = F.nan := rfl
@[simp] theorem F.sub_inf_fin (q : ℚ) : F.sub F.inf (F.fin q) = F.inf := rfl
@[simp] theorem F.sub_fin_inf (q : ℚ) : F.sub (F.fin q) F.inf = F.ninf := rfl
@[simp] theorem F.sub_ninf_fin (q : ℚ) : F.sub F.ninf (F.fin q) = F.ninf := rfl
@[simp] theorem F.sub_fin_ninf (q : ℚ) : F.sub (F.fin q) F.ninf = F.inf := rfl
@[simp] theorem F.sub_fin_fin (a b : ℚ) : F.sub (F.fin a) (F.fin b) = F.fin (a - b) := by
  show F.fin (a + -b) = F.fin (a - b)
  rw [sub_eq_add_neg]

@[simp] theorem F.mul_nan_left (x : F) : F.mul F.nan x = F.nan := by cases x <;> rfl
@[simp] theorem F.mul_nan_right (x : F) : F.mul x F.nan = F.nan := by cases x <;> rfl
@[simp] theorem F.mul_fin_fin (a b : ℚ) : F.mul (F.fin a) (F.fin b) = F.fin (a * b) := rfl
@[simp] theorem F.mul_fin_inf (q : ℚ) :
    F.mul (F.fin q) F.inf = if 0 < q then F.inf else if q < 0 then F.ninf else F.nan := rfl
@[simp] theorem F.mul_inf_fin (q : ℚ) :
    F.mul F.inf (F.fin q) = if 0 < q then F.inf else if q < 0 then F.ninf else F.nan := rfl
@[simp] theorem F.mul_fin_ninf (q : ℚ) :
    F.mul (F.fin q) F.ninf = if 0 < q then F.ninf else if q < 0 then F.inf else F.nan := rfl
@[simp] theorem F.mul_ninf_fin (q : ℚ) :
    F.mul F.ninf (F.fin q) = if 0 < q then F.ninf else if q < 0 then F.inf else F.nan := rfl
@[simp] theorem F.mul_inf_inf : F.mul F.inf F.inf = F.inf := rfl
@[simp] theorem F.mul_inf_ninf : F.mul F.inf F.ninf = F.ninf := rfl
@[simp] theorem F.mul_ninf_inf : F.mul F.ninf F.inf = F.ninf := rfl
@[simp] theorem F.mul_ninf_ninf : F.mul F.ninf F.ninf = F.inf := rfl

@[simp] theorem F.div_nan_left (x : F) : F.div F.nan x = F.nan := by cases x <;> rfl
@[simp] theorem F.div_nan_right (x : F) : F.div x F.nan = F.nan := by cases x <;> rfl
@[simp] theorem F.div_inf_inf : F.div F.inf F.inf = F.nan := rfl
@[simp] theorem F.div_inf_ninf : F.div F.inf F.ninf = F.nan := rfl
@[simp] theorem F.div_ninf_inf : F.div F.ninf F.inf = F.nan := rfl
@[simp] theorem F.div_ninf_ninf : F.div F.ninf F.ninf = F.nan := rfl
@[simp] theorem F.div_inf_fin (q : ℚ) :
    F.div F.inf (F.fin q) = if q < 0 then F.ninf else F.inf := rfl
@[simp] theorem F.div_ninf_fin (q : ℚ) :
    F.div F.ninf (F.fin q) = if q < 0 then F.inf else F.ninf := rfl
@[simp] theorem F.div_fin_inf (q : ℚ) : F.div (F.fin q) F.inf = F.fin 0 := rfl
@[simp] theorem F.div_fin_ninf (q : ℚ) : F.div (F.fin q) F.ninf = F.fin 0 := rfl
@[simp] theorem F.div_fin_fin (a b : ℚ) :
    F.div (F.fin a) (F.fin b) =
      if b = 0 then (if 0 < a then F.inf else if a < 0 then F.ninf else F.nan)
      else F.fin (a / b) := rfl

@[simp] theorem F.abs_nan : F.abs F.nan = F.nan := rfl
@[simp] theorem F.abs_inf : F.abs F.inf = F.inf := rfl
@[simp] theorem F.abs_ninf : F.abs F.ninf = F.inf := rfl
@[simp] theorem F.abs_fin (q : ℚ) :
    F.abs (F.fin q) = if q < 0 then F.fin (-q) else F.fin q := by
  rcases lt_or_le q 0 with h | h
  · simp [F.abs, h, abs_of_neg h]
  · simp [F.abs, not_lt.mpr h, abs_of_nonneg h]

@[simp] theorem F.gtB_nan_left (x : F) : F.gtB F.nan x = false := by cases x <;> rfl
@[simp] theorem F.gtB_nan_right (x : F) : F.gtB x F.nan = false := by cases x <;> rfl
@[simp] theorem F.gtB_inf_inf : F.gtB F.inf F.inf = false := rfl
@[simp] theorem F.gtB_inf_ninf : F.gtB F.inf F.ninf = true := rfl
@[simp] theorem F.gtB_inf_fin (q : ℚ) : F.gtB F.inf (F.fin q) = true := rfl
@[simp] theorem F.gtB_ninf (x : F) : F.gtB F.ninf x = false := by cases x <;> rfl
@[simp] theorem F.gtB_fin_inf (q : ℚ) : F.gtB (F.fin q) F.inf = false := rfl
@[simp] theorem F.gtB_fin_ninf (q : ℚ) : F.gtB (F.fin q) F.ninf = true := rfl
@[simp] theorem F.gtB_fin_fin (a b : ℚ) :
    F.gtB (F.fin a) (F.fin b) = if b < a then true else false := rfl

@[simp] theorem F.ltB_eq (x y : F) : F.ltB x y = F.gtB y x := rfl

@[simp] theorem F.fillna_nan (v : ℚ) : F.fillna v F.nan = F.fin v := rfl
@[simp] theorem F.fillna_inf (v : ℚ) : F.fillna v F.inf = F.inf := rfl
@[simp] theorem F.fillna_ninf (v : ℚ) : F.fillna v F.ninf = F.ninf := rfl
@[simp] theorem F.fillna_fin (v q : ℚ) : F.fillna v (F.fin q) = F.fin q := by
  simp [F.fillna]

@[simp] theorem F.clip0_nan : F.clip0 F.nan = F.nan := rfl
@[simp] theorem F.clip0_inf : F.clip0 F.inf = F.inf := rfl
@[simp] theorem F.clip0_ninf : F.clip0 F.ninf = F.fin 0 := rfl
@[simp] theorem F.clip0_fin (q : ℚ) :
    F.clip0 (F.fin q) = if q < 0 then F.fin 0 else F.fin q := by
  rcases lt_or_le q 0 with h | h
  · simp [F.clip0, h, max_eq_right h.le]
  · simp [F.clip0, not_lt.mpr h, max_eq_left h]

@[simp] theorem F.maxsk_nan_left (x : F) : F.maxsk F.nan x = x := by cases x <;> rfl
@[simp] theorem F.maxsk_nan_right (x : F) : F.maxsk x F.nan = x := by cases x <;> rfl
@[simp] theorem F.maxsk_fin_fin (a b : ℚ) :
    F.maxsk (F.fin a) (F.fin b) = if a < b then F.fin b else F.fin a := by
  rcases lt_or_le a b with h | h
  · simp [F.maxsk, h, max_eq_right h.le]
  · simp [F.maxsk, not_lt.mpr h, max_eq_left h]
@[simp] theorem F.maxsk_fin_inf (q : ℚ) : F.maxsk (F.fin q) F.inf = F.inf := rfl
@[simp] theorem F.maxsk_inf_fin (q : ℚ) : F.maxsk F.inf (F.fin q) = F.inf := rfl
@[simp] theorem F.maxsk_fin_ninf (q : ℚ) : F.maxsk (F.fin q) F.ninf = F.fin q := rfl
@[simp] theorem F.maxsk_ninf_fin (q : ℚ) : F.maxsk F.ninf (F.fin q) = F.fin q := rfl

/-- One step of `Series.ewm(alpha, adjust=False, ignore_na=False).mean()` on
a valid (non-`nan`) observation `x`, given the running mean `avg` and the
relative weight `w` of the old mean: pandas computes
`(w*(1-a)*avg + a*x) / (w*(1-a) + a)` (with no `nan` gap `w` is 1 and this
is the familiar `avg + a*(x-avg)`). -/
def ewmStep (a w : ℚ) (avg x : F) : F :=
  F.div (F.add (F.mul (F.fin (w * (1 - a))) avg) (F.mul (F.fin a) x)) (F.fin (w * (1 - a) + a))

/-- `Series.ewm(alpha=a, adjust=False, ignore_na=False).mean()`.
State: `none` before the first valid observation (outputs are `nan` there),
otherwise `some (avg, oldWt)`; pandas decays `oldWt` by `1-a` across a
`nan` gap and renormalises at the next valid observation. -/
def ewmGo (a : ℚ) : Option (F × ℚ) → List F → List F
  | _, [] => []
  | none, x :: xs =>
      if x = F.nan then F.nan :: ewmGo a none xs
      else x :: ewmGo a (some (x, 1)) xs
  | some (avg, w), x :: xs =>
      if x = F.nan then avg :: ewmGo a (some (avg, w * (1 - a))) xs
      else ewmStep a w avg x :: ewmGo a (some (ewmStep a w avg x, 1)) xs

/-- `Series.ewm(alpha=a, adjust=False).mean()` over a whole series. -/
def ewmMeanF (a : ℚ) (xs : List F) : List F := ewmGo a none xs

@[simp] theorem ewmGo_nil (a : ℚ) (st : Option (F × ℚ)) : ewmGo a st [] = [] := by
  cases st with
  | none => rfl
  | some p => cases p; rfl

@[simp] theorem ewmGo_none_nan (a : ℚ) (xs : List F) :
    ewmGo a none (F.nan :: xs) = F.nan :: ewmGo a none xs := by
  simp [ewmGo]

@[simp] theorem ewmGo_none_fin (a q : ℚ) (xs : List F) :
    ewmGo a none (F.fin q :: xs) = F.fin q :: ewmGo a (some (F.fin q, 1)) xs := by
  simp [ewmGo]

@[simp] theorem ewmGo_none_inf (a : ℚ) (xs : List F) :
    ewmGo a none (F.inf :: xs) = F.inf :: ewmGo a (some (F.inf, 1)) xs := by
  simp [ewmGo]

@[simp] theorem ewmGo_some_nan (a : ℚ) (avg : F) (w : ℚ) (xs : List F) :
    ewmGo a (some (avg, w)) (F.nan :: xs) = avg :: ewmGo a (some (avg, w * (1 - a))) xs := by
  simp [ewmGo]

@[simp] theorem ewmGo_some_fin (a : ℚ) (avg : F) (w q : ℚ) (xs : List F) :
    ewmGo a (some (avg, w)) (F.fin q :: xs) =
      ewmStep a w avg (F.fin q) :: ewmGo a (some (ewmStep a w avg (F.fin q), 1)) xs := by
  simp [ewmGo]

theorem ewmGo_cons_valid (a : ℚ) (avg : F) (w : ℚ) (x : F) (xs : List F) (hx : x ≠ F.nan) :
    ewmGo a (some (avg, w)) (x :: xs) =
      ewmStep a w avg x :: ewmGo a (some (ewmStep a w avg x, 1)) xs := by
  simp [ewmGo, hx]

/-- `Series.shift(1)` applied to a clean rational series: a leading `nan`,
then every element moved down one slot. -/
def shift1 (xs : List ℚ) : List F := F.nan :: (xs.dropLast.map F.fin)

/-- `ema(series, length)`: `series.ewm(span=length, adjust=False).mean()`,
i.e. the exponential moving average with `alpha = 2/(length+1)`. -/
def ema (series : List ℚ) (length : ℕ) : List F :=
  ewmMeanF (2 / ((length : ℚ) + 1)) (series.map F.fin)

/-- `close.diff()`: first element `nan`, then adjacent differences. -/
def rsiDeltas (close : List ℚ) : List F :=
  List.zipWith F.sub (close.map F.fin) (shift1 close)

/-- Wilder-smoothed gains: `delta.clip(lower=0).ewm(alpha=1/length, adjust=False).mean()`. -/
def rsiUpS (close : List ℚ) (length : ℕ) : List F :=
  ewmMeanF (1 / (length : ℚ)) ((rsiDeltas close).map F.clip0)

/-- Wilder-smoothed losses: `(-delta).clip(lower=0).ewm(alpha=1/length, adjust=False).mean()`. -/
def rsiDownS (close : List ℚ) (length : ℕ) : List F :=
  ewmMeanF (1 / (length : ℚ)) ((rsiDeltas close).map (fun d => F.clip0 d.neg))

/-- `rs = smoothed_gain / smoothed_loss`, elementwise. -/
def rsiRS (close : List ℚ) (length : ℕ) : List F :=
  List.zipWith F.div (rsiUpS close length) (rsiDownS close length)

/-- `rsi(close, length)`: `100 - (100/(1+rs)).fillna(50)`. -/
def rsi (close : List ℚ) (length : ℕ) : List F :=
  (rsiRS close length).map
    (fun r => F.sub (F.fin 100) (F.fillna 50 (F.div (F.fin 100) (F.add (F.fin 1) r))))

/-- `macd(close)`: MACD line `EMA12 - EMA26` and its EMA9 signal line. -/
def macd (close : List ℚ) : List F × List F :=
  (List.zipWith F.sub (ewmMeanF (2 / 13) (close.map F.fin)) (ewmMeanF (2 / 27) (close.map F.fin)),
   ewmMeanF (2 / 10)
     (List.zipWith F.sub (ewmMeanF (2 / 13) (close.map F.fin))
       (ewmMeanF (2 / 27) (close.map F.fin))))

/-- True range rows, first column: `high - low`. -/
def trA1 (high low : List ℚ) : List F :=
  List.zipWith (fun h l => F.fin (h - l)) high low

/-- True range rows, second column: `(high - close.shift(1)).abs()`. -/
def trA2 (high close : List ℚ) : List F :=
  List.zipWith (fun h p => (F.sub (F.fin h) p).abs) high (shift1 close)

/-- True range rows, third column: `(low - close.shift(1)).abs()`. -/
def trA3 (low close : List ℚ) : List F :=
  List.zipWith (fun l p => (F.sub (F.fin l) p).abs) low (shift1 close)

/-- `tr`: the row maximum (skipna) of the three true-range columns. -/
def trOf (high low close : List ℚ) : List F :=
  List.zipWith F.maxsk (List.zipWith F.maxsk (trA1 high low) (trA2 high close)) (trA3 low close)

/-- `up = high - high.shift(1)`. -/
def upOf (high : List ℚ) : List F :=
  List.zipWith F.sub (high.map F.fin) (shift1 high)

/-- `down = low.shift(1) - low`. -/
def downOf (low : List ℚ) : List F :=
  List.zipWith F.sub (shift1 low) (low.map F.fin)

/-- `p_dm = np.where((up>down)&(up>0), up, 0.0)`. -/
def pdmOf (high low : List ℚ) : List F :=
  List.zipWith (fun u d => if u.gtB d && u.gtB (F.fin 0) then u else F.fin 0)
    (upOf high) (downOf low)

/-- `m_dm = np.where((down>up)&(down>0), down, 0.0)`. -/
def mdmOf (high low : List ℚ) : List F :=
  List.zipWith (fun u d => if d.gtB u && d.gtB (F.fin 0) then d else F.fin 0)
    (upOf high) (downOf low)

/-- `tr_s`: the Wilder-smoothed true range. -/
def trSOf (high low close : List ℚ) (length : ℕ) : List F :=
  ewmMeanF (1 / (length : ℚ)) (trOf high low close)

/-- `p_di = 100 * (p_dm.ewm(alpha=1/length, adjust=False).mean() / tr_s)`. -/
def pdiOf (high low close : List ℚ) (length : ℕ) : List F :=
  List.zipWith (fun pm t => F.mul (F.fin 100) (F.div pm t))
    (ewmMeanF (1 / (length : ℚ)) (pdmOf high low)) (trSOf high low close length)

/-- `m_di = 100 * (m_dm.ewm(alpha=1/length, adjust=False).mean() / tr_s)`. -/
def mdiOf (high low close : List ℚ) (length : ℕ) : List F :=
  List.zipWith (fun mm t => F.mul (F.fin 100) (F.div mm t))
    (ewmMeanF (1 / (length : ℚ)) (mdmOf high low)) (trSOf high low close length)

/-- `dx = 100 * abs(p_di - m_di) / (p_di + m_di)`. -/
def dxOf (high low close : List ℚ) (length : ℕ) : List F :=
  List.zipWith (fun p m => F.div (F.mul (F.fin 100) ((F.sub p m).abs)) (F.add p m))
    (pdiOf high low close length) (mdiOf high low close length)

/-- `adx(high, low, close, length)`: the Wilder-smoothed `dx` with any
remaining `nan` replaced by 0. -/
def adx (high low close : List ℚ) (length : ℕ) : List F :=
  (ewmMeanF (1 / (length : ℚ)) (dxOf high low close length)).map (F.fillna 0)

/-!  The Signal Evaluator (strategy step 4 of `run_once`): the latest
indicator snapshot is compared with the float semantics of the script
(`F.gtB`/`F.ltB`, false on `nan`). -/

/-- The possible actions of `run_once` (and, with a flat position, the
pure trade signal). -/
inductive TradeAction where
  | LONG : TradeAction
  | SHORT : TradeAction
  | HOLD : TradeAction
deriving DecidableEq

/-- `buy_signal = (price > EMA) and (MACD > SIG) and (RSI > 45) and (ADX > adx_thresh)`. -/
def buySignal (price emaV macdV sigV rsiV adxV : F) (thresh : ℚ) : Bool :=
  F.gtB price emaV && F.gtB macdV sigV && F.gtB rsiV (F.fin 45) && F.gtB adxV (F.fin thresh)

/-- `sell_signal = (price < EMA) and (MACD < SIG) and (RSI < 55) and (ADX > adx_thresh)`. -/
def sellSignal (price emaV macdV sigV rsiV adxV : F) (thresh : ℚ) : Bool :=
  F.ltB price emaV && F.ltB macdV sigV && F.ltB rsiV (F.fin 55) && F.gtB adxV (F.fin thresh)

/-- The trade signal for a given snapshot: the `action` if-chain of
`run_once` specialised to a flat position (`in_long = in_short = false`),
which is the position-free Signal Evaluator of the strategy. -/
def tradeSignal (price emaV macdV sigV rsiV adxV : F) (thresh : ℚ) : TradeAction :=
  if buySignal price emaV macdV sigV rsiV adxV thresh then TradeAction.LONG
  else if sellSignal price emaV macdV sigV rsiV adxV thresh then TradeAction.SHORT
  else TradeAction.HOLD

/-!  The Execution State Machine: a shallow embedding of `run_once`.
External collaborators appear as oracle fields of the input (the broker
position, the outcome of the close request and of the order submission);
the observable behaviour is the list of broker/state events and the state
file contents after the run.  Telegram notifications and the settle
`time.sleep(2)` have no effect on control flow or persisted state and are
not recorded. -/

/-- One invocation's inputs: the fetched data (`high`/`low`/`close` columns
and the last candle's timestamp rendered as a string), the wall clock, the
configured parameters, the broker oracle (`posQty` from `get_position`,
`closeOk`/`submitOk` the outcomes of `close_position`/`submit_order`), and
the state file contents (`state = none` when the file is missing or has no
`last_bar` key). -/
structure RunInput where
  symbol : String
  lastTs : String
  high : List ℚ
  low : List ℚ
  close : List ℚ
  nowUtc : ℚ
  lastTsUtc : ℚ
  adxThresh : ℚ
  qty : ℤ
  posQty : Option ℤ
  closeOk : Bool
  submitOk : Bool
  state : Option String

/-- Observable events of one run, in order: the broker position read, the
position-close request (with its outcome, which `run_once` ignores), the
order submission (side and outcome), and the state-file write. -/
inductive Event where
  | getPos : Event
  | closePos : Bool → Event
  | submit : String → ℤ → Bool → Event
  | writeState : String → Event
deriving DecidableEq

/-- The observable outcome of one run: the events issued, whether the
staleness guard reported stale data, and the resulting state file. -/
structure RunOutput where
  events : List Event
  staleWarned : Bool
  state : Option String
deriving DecidableEq

/-- `bar_key = f"{symbol}_{last_ts}"`. -/
def barKey (p : RunInput) : String := p.symbol ++ "_" ++ p.lastTs

/-- `lag_minutes = (now_utc - last_ts).total_seconds() / 60`. -/
def lagMinutes (p : RunInput) : ℚ := (p.nowUtc - p.lastTsUtc) / 60

/-- `price = float(r["Close"])`, the close of the last candle. -/
def priceOf (p : RunInput) : ℚ := p.close.getLastD 0

/-- The last row's EMA(50). -/
def emaLastOf (p : RunInput) : F := (ema p.close 50).getLastD F.nan

/-- The last row's RSI(14). -/
def rsiLastOf (p : RunInput) : F := (rsi p.close 14).getLastD F.nan

/-- The last row's MACD line. -/
def macdLastOf (p : RunInput) : F := (macd p.close).1.getLastD F.nan

/-- The last row's MACD signal line. -/
def sigLastOf (p : RunInput) : F := (macd p.close).2.getLastD F.nan

/-- The last row's ADX(14). -/
def adxLastOf (p : RunInput) : F := (adx p.high p.low p.close 14).getLastD F.nan

/-- The run's `buy_signal`. -/
def buyOf (p : RunInput) : Bool :=
  buySignal (F.fin (priceOf p)) (emaLastOf p) (macdLastOf p) (sigLastOf p)
    (rsiLastOf p) (adxLastOf p) p.adxThresh

/-- The run's `sell_signal`. -/
def sellOf (p : RunInput) : Bool :=
  sellSignal (F.fin (priceOf p)) (emaLastOf p) (macdLastOf p) (sigLastOf p)
    (rsiLastOf p) (adxLastOf p) p.adxThresh

/-- `in_long = pos_qty > 0` (`pos_qty` is 0 when there is no position). -/
def inLongOf (p : RunInput) : Bool :=
  match p.posQty with
  | some q => if 0 < q then true else false
  | none => false

/-- `in_short = pos_qty < 0`. -/
def inShortOf (p : RunInput) : Bool :=
  match p.posQty with
  | some q => if q < 0 then true else false
  | none => false

/-- The `action` if-chain of `run_once`. -/
def actionOf (p : RunInput) : TradeAction :=
  if buyOf p && !inLongOf p then TradeAction.LONG
  else if sellOf p && !inShortOf p then TradeAction.SHORT
  else TradeAction.HOLD

/-- `side = "buy" if action == "LONG" else "sell"`. -/
def sideOf (p : RunInput) : String :=
  if actionOf p = TradeAction.LONG then "buy" else "sell"

/-- The close request issued before opening when a position exists
(`if pos: alp.close_position(...)`); its outcome is recorded but ignored. -/
def closeEventsOf (p : RunInput) : List Event :=
  if p.posQty.isSome then [Event.closePos p.closeOk] else []

/-- The embedding of `run_once`, in the script's order: the insufficient
data guard (`df.empty or len(df) < 50`), the indicator computation, the
advisory lag check, the signal, the position read, the already-processed
bar check, and the execution block in which the state file is written only
after a successful `submit_order`. -/
def runOnce (p : RunInput) : RunOutput :=
  if p.close.length < 50 then ⟨[], false, p.state⟩
  else if p.state = some (barKey p) then
    ⟨[Event.getPos], if 25 < lagMinutes p then true else false, p.state⟩
  else if actionOf p = TradeAction.HOLD then
    ⟨[Event.getPos], if 25 < lagMinutes p then true else false, p.state⟩
  else if p.submitOk then
    ⟨Event.getPos :: closeEventsOf p ++
       [Event.submit (sideOf p) p.qty true, Event.writeState (barKey p)],
     if 25 < lagMinutes p then true else false, some (barKey p)⟩
  else
    ⟨Event.getPos :: closeEventsOf p ++ [Event.submit (sideOf p) p.qty false],
     if 25 < lagMinutes p then true else false, p.state⟩

/-- The keys written to the state file during a run. -/
def writeKeys (es : List Event) : List String :=
  es.filterMap fun e => match e with
    | Event.writeState k => some k
    | _ => none

/-- The sides of the successful order submissions of a run. -/
def okSubmits (es : List Event) : List String :=
  es.filterMap fun e => match e with
    | Event.submit s _ true => some s
    | _ => none

/-- All order submissions of a run (side and outcome). -/
def submitCalls (es : List Event) : List (String × Bool) :=
  es.filterMap fun e => match e with
    | Event.submit s _ ok => some (s, ok)
    | _ => none

/-- All position-close requests of a run. -/
def closeCalls (es : List Event) : List Bool :=
  es.filterMap fun e => match e with
    | Event.closePos ok => some ok
    | _ => none

/-- Serialized re-invocations of `run_once` against an unchanged candle set
and position: each run takes the state file the previous run left, with the
broker oracle (`closeOk`, `submitOk`) free to differ per run.  Returns the
concatenated event log and the final state file. -/
def runSeq (p : RunInput) : List (Bool × Bool) → List Event × Option String
  | [] => ([], p.state)
  | o :: os =>
      let r := runOnce { p with closeOk := o.1, submitOk := o.2 }
      let rest := runSeq { p with state := r.state } os
      (r.events ++ rest.1, rest.2)

/-! Helper facts about the event filters. -/

@[simp] theorem writeKeys_nil : writeKeys [] = [] := rfl
@[simp] theorem okSubmits_nil : okSubmits [] = [] := rfl
@[simp] theorem submitCalls_nil : submitCalls [] = [] := rfl
@[simp] theorem closeCalls_nil : closeCalls [] = [] := rfl

@[simp] theorem writeKeys_getPos (es : List Event) :
    writeKeys (Event.getPos :: es) = writeKeys es := rfl
@[simp] theorem writeKeys_closePos (b : Bool) (es : List Event) :
    writeKeys (Event.closePos b :: es) = writeKeys es := rfl
@[simp] theorem writeKeys_submit (s : String) (q : ℤ) (ok : Bool) (es : List Event) :
    writeKeys (Event.submit s q ok :: es) = writeKeys es := rfl
@[simp] theorem writeKeys_write (k : String) (es : List Event) :
    writeKeys (Event.writeState k :: es) = k :: writeKeys es := rfl
@[simp] theorem writeKeys_append (es fs : List Event) :
    writeKeys (es ++ fs) = writeKeys es ++ writeKeys fs := by
  simp [writeKeys]

@[simp] theorem okSubmits_getPos (es : List Event) :
    okSubmits (Event.getPos :: es) = okSubmits es := rfl
@[simp] theorem okSubmits_closePos (b : Bool) (es : List Event) :
    okSubmits (Event.closePos b :: es) = okSubmits es := rfl
@[simp] theorem okSubmits_submit_true (s : String) (q : ℤ) (es : List Event) :
    okSubmits (Event.submit s q true :: es) = s :: okSubmits es := rfl
@[simp] theorem okSubmits_submit_false (s : String) (q : ℤ) (es : List Event) :
    okSubmits (Event.submit s q false :: es) = okSubmits es := rfl
@[simp] theorem okSubmits_write (k : String) (es : List Event) :
    okSubmits (Event.writeState k :: es) = okSubmits es := rfl
@[simp] theorem okSubmits_append (es fs : List Event) :
    okSubmits (es ++ fs) = okSubmits es ++ okSubmits fs := by
  simp [okSubmits]

@[simp] theorem submitCalls_getPos (es : List Event) :
    submitCalls (Event.getPos :: es) = submitCalls es := rfl
@[simp] theorem submitCalls_closePos (b : Bool) (es : List Event) :
    submitCalls (Event.closePos b :: es) = submitCalls es := rfl
@[simp] theorem submitCalls_submit (s : String) (q : ℤ) (ok : Bool) (es : List Event) :
    submitCalls (Event.submit s q ok :: es) = (s, ok) :: submitCalls es := rfl
@[simp] theorem submitCalls_write (k : String) (es : List Event) :
    submitCalls (Event.writeState k :: es) = submitCalls es := rfl
@[simp] theorem submitCalls_append (es fs : List Event) :
    submitCalls (es ++ fs) = submitCalls es ++ submitCalls fs := by
  simp [submitCalls]

@[simp] theorem closeCalls_getPos (es : List Event) :
    closeCalls (Event.getPos :: es) = closeCalls es := rfl
@[simp] theorem closeCalls_closePos (b : Bool) (es : List Event) :
    closeCalls (Event.closePos b :: es) = b :: closeCalls es := rfl
@[simp] theorem closeCalls_submit (s : String) (q : ℤ) (ok : Bool) (es : List Event) :
    closeCalls (Event.submit s q ok :: es) = closeCalls es := rfl
@[simp] theorem closeCalls_write (k : String) (es : List Event) :
    closeCalls (Event.writeState k :: es) = closeCalls es := rfl
@[simp] theorem closeCalls_append (es fs : List Event) :
    closeCalls (es ++ fs) = closeCalls es ++ closeCalls fs := by
  simp [closeCalls]

@[simp] theorem writeKeys_closeEvents (p : RunInput) : writeKeys (closeEventsOf p) = [] := by
  unfold closeEventsOf
  split <;> simp

@[simp] theorem okSubmits_closeEvents (p : RunInput) : okSubmits (closeEventsOf p) = [] := by
  unfold closeEventsOf
  split <;> simp

@[simp] theorem submitCalls_closeEvents (p : RunInput) : submitCalls (closeEventsOf p) = [] := by
  unfold closeEventsOf
  split <;> simp

/-- **C1.** The persisted marker is updated exactly when `submit_order`
succeeds: in every run, a state-file write occurs for each successful
submission (one, with the current candle's key) and for nothing else, and
whenever no submission succeeded — HOLD intent, an already-processed bar,
the insufficient-data abort, or a failed submission — the resulting state
file is exactly the incoming one, so a later run against the same candle
retries the full open sequence. -/
theorem C1_marker_iff_success (p : RunInput) :
    writeKeys (runOnce p).events = (okSubmits (runOnce p).events).map (fun _ => barKey p) ∧
    (runOnce p).state =
      (if okSubmits (runOnce p).events = [] then p.state else some (barKey p)) := by
  unfold runOnce
  by_cases h1 : p.close.length < 50
  · simp [h1]
  by_cases h2 : p.state = some (barKey p)
  · simp [h1, h2]
  by_cases h3 : actionOf p = TradeAction.HOLD
  · simp [h1, h2, h3]
  by_cases h4 : p.submitOk
  · simp [h1, h2, h3, h4]
  · simp [h1, h2, h3, h4]

/-- Case summary of one run: either the state file is left untouched and no
submission succeeded, or the state file now holds the current candle's key
and exactly one submission succeeded. -/
theorem runOnce_cases (p : RunInput) :
    ((runOnce p).state = p.state ∧ okSubmits (runOnce p).events = []) ∨
    ((runOnce p).state = some (barKey p) ∧ (okSubmits (runOnce p).events).length = 1) := by
  unfold runOnce
  by_cases h1 : p.close.length < 50
  · exact Or.inl (by simp [h1])
  by_cases h2 : p.state = some (barKey p)
  · exact Or.inl (by simp [h1, h2])
  by_cases h3 : actionOf p = TradeAction.HOLD
  · exact Or.inl (by simp [h1, h2, h3])
  by_cases h4 : p.submitOk
  · exact Or.inr (by simp [h1, h2, h3, h4])
  · exact Or.inl (by simp [h1, h2, h3, h4])

/-- A run whose incoming marker already equals the current candle's key
issues no close, no submission and no write, and leaves the state file
unchanged. -/
theorem runOnce_marked (p : RunInput) (h : p.state = some (barKey p)) :
    closeCalls (runOnce p).events = [] ∧ submitCalls (runOnce p).events = [] ∧
    okSubmits (runOnce p).events = [] ∧ writeKeys (runOnce p).events = [] ∧
    (runOnce p).state = p.state := by
  unfold runOnce
  by_cases h1 : p.close.length < 50 <;> simp [h1, h]

/-- Once the marker holds the current candle's key, any number of further
serialized runs submit nothing and keep the marker. -/
theorem runSeq_marked (os : List (Bool × Bool)) :
    ∀ p : RunInput, p.state = some (barKey p) →
      okSubmits (runSeq p os).1 = [] ∧ (runSeq p os).2 = p.state := by
  induction os with
  | nil => intro p h; simp [runSeq]
  | cons o os ih =>
      intro p h
      have hq : ({ p with closeOk := o.1, submitOk := o.2 } : RunInput).state =
          some (barKey { p with closeOk := o.1, submitOk := o.2 }) := h
      have hm := runOnce_marked _ hq
      have hst : (runOnce { p with closeOk := o.1, submitOk := o.2 }).state = p.state :=
        hm.2.2.2.2
      have ihx := ih { p with state := (runOnce { p with closeOk := o.1, submitOk := o.2 }).state }
        (by simpa [hst] using h)
      simp only [runSeq]
      constructor
      · simp [hm.2.2.1, ihx.1]
      · simpa [hst] using ihx.2

/-- Across any number of serialized runs over the same candle set and
position, at most one order submission ever succeeds. -/
theorem runSeq_le_one (os : List (Bool × Bool)) :
    ∀ p : RunInput, (okSubmits (runSeq p os).1).length ≤ 1 := by
  induction os with
  | nil => intro p; simp [runSeq]
  | cons o os ih =>
      intro p
      rcases runOnce_cases { p with closeOk := o.1, submitOk := o.2 } with ⟨hst, hok⟩ | ⟨hst, hok⟩
      · simp only [runSeq]
        simp [hok, ih]
      · have hrest := runSeq_marked os
          { p with state := (runOnce { p with closeOk := o.1, submitOk := o.2 }).state }
          (by simpa using hst)
        simp only [runSeq]
        simp [hok, hrest.1]

/-- **C2.** At-most-once execution per candle: a run whose incoming marker
equals the current candle's key issues no `close_position`, no
`submit_order` and no state write and leaves the marker unchanged; and over
any sequence of serialized invocations against an unchanged candle set and
position (the broker outcomes free to vary per run), at most one order
submission ever succeeds — once one does, every later run is a no-op. -/
theorem C2_at_most_once (p : RunInput) (os : List (Bool × Bool)) :
    (okSubmits (runSeq p os).1).length ≤ 1 ∧
    closeCalls (runOnce { p with state := some (barKey p) }).events = [] ∧
    submitCalls (runOnce { p with state := some (barKey p) }).events = [] ∧
    writeKeys (runOnce { p with state := some (barKey p) }).events = [] ∧
    (runOnce { p with state := some (barKey p) }).state = some (barKey p) := by
  have hm := runOnce_marked { p with state := some (barKey p) } rfl
  exact ⟨runSeq_le_one os p, hm.1, hm.2.1, hm.2.2.2.1, hm.2.2.2.2⟩

/-- **C4.** Flip ordering: whenever an open intent is determined on a fresh
bar while the broker reports an existing position, the run issues exactly
`get_position`, then the close request, then the market order — the close
outcome `closeOk` does not influence whether the order is submitted — and
the marker advances exactly when the submission succeeds. -/
theorem C4_flip_order (p : RunInput) (h50 : 50 ≤ p.close.length)
    (hnew : p.state ≠ some (barKey p)) (hact : actionOf p ≠ TradeAction.HOLD)
    (hpos : p.posQty.isSome = true) :
    (runOnce p).events =
      [Event.getPos, Event.closePos p.closeOk, Event.submit (sideOf p) p.qty p.submitOk] ++
        (if p.submitOk then [Event.writeState (barKey p)] else []) ∧
    (runOnce p).state = (if p.submitOk then some (barKey p) else p.state) := by
  have h1 : ¬p.close.length < 50 := not_lt.mpr h50
  unfold runOnce
  by_cases h4 : p.submitOk <;> simp [h1, hnew, hact, h4, closeEventsOf, hpos]

/-- The broker-visible events and the resulting state file do not depend on
the wall clock. -/
theorem runOnce_now_irrel (p : RunInput) (t : ℚ) :
    (runOnce { p with nowUtc := t }).events = (runOnce p).events ∧
    (runOnce { p with nowUtc := t }).state = (runOnce p).state := by
  have eAct : actionOf { p with nowUtc := t } = actionOf p := rfl
  have eKey : barKey { p with nowUtc := t } = barKey p := rfl
  have eSide : sideOf { p with nowUtc := t } = sideOf p := rfl
  have eCl : closeEventsOf { p with nowUtc := t } = closeEventsOf p := rfl
  have eSt : ({ p with nowUtc := t } : RunInput).state = p.state := rfl
  have eClo : ({ p with nowUtc := t } : RunInput).close = p.close := rfl
  have eSub : ({ p with nowUtc := t } : RunInput).submitOk = p.submitOk := rfl
  have eQty : ({ p with nowUtc := t } : RunInput).qty = p.qty := rfl
  unfold runOnce
  simp only [eAct, eKey, eSide, eCl, eSt, eClo, eSub, eQty]
  by_cases h1 : p.close.length < 50
  · simp [h1]
  by_cases h2 : p.state = some (barKey p)
  · simp [h1, h2]
  by_cases h3 : actionOf p = TradeAction.HOLD
  · simp [h1, h2, h3]
  by_cases h4 : p.submitOk <;> simp [h1, h2, h3, h4]

/-- **C10.** The staleness guard is advisory only: when the data is present
and the lag exceeds 25 minutes the run reports staleness, but the events it
issues and the state it persists are exactly those of the same run at any
other wall-clock instant — the guard alone never blocks execution. -/
theorem C10_stale_advisory (p : RunInput) (t : ℚ) (h50 : 50 ≤ p.close.length)
    (hlag : 25 < lagMinutes p) :
    (runOnce p).staleWarned = true ∧
    (runOnce { p with nowUtc := t }).events = (runOnce p).events ∧
    (runOnce { p with nowUtc := t }).state = (runOnce p).state := by
  refine ⟨?_, (runOnce_now_irrel p t).1, (runOnce_now_irrel p t).2⟩
  have h1 : ¬p.close.length < 50 := not_lt.mpr h50
  unfold runOnce
  by_cases h2 : p.state = some (barKey p)
  · simp [h1, h2, hlag]
  by_cases h3 : actionOf p = TradeAction.HOLD
  · simp [h1, h2, h3, hlag]
  by_cases h4 : p.submitOk <;> simp [h1, h2, h3, h4, hlag]

/-- The script's strict float comparison is asymmetric: `x > y` and `y > x`
are never both true (in particular `close > EMA` and `close < EMA` split
exactly). -/
theorem F.gtB_asymm (x y : F) (h : F.gtB x y = true) : F.gtB y x = false := by
  cases x <;> cases y <;> simp_all [F.gtB]
  exact le_of_lt h

/-- **C3.** The trade signal is exactly the strict-inequality rule: LONG
iff `close > EMA`, `MACD > signal`, `RSI > 45` and `ADX > adx_threshold`
all hold under the script's float comparisons; SHORT iff the mirrored
conditions hold; HOLD otherwise; and the LONG and SHORT conditions are
never both true. -/
theorem C3_signal_rule (price emaV macdV sigV rsiV adxV : F) (thresh : ℚ) :
    (tradeSignal price emaV macdV sigV rsiV adxV thresh = TradeAction.LONG ↔
      (F.gtB price emaV = true ∧ F.gtB macdV sigV = true ∧
        F.gtB rsiV (F.fin 45) = true ∧ F.gtB adxV (F.fin thresh) = true)) ∧
    (tradeSignal price emaV macdV sigV rsiV adxV thresh = TradeAction.SHORT ↔
      (F.ltB price emaV = true ∧ F.ltB macdV sigV = true ∧
        F.ltB rsiV (F.fin 55) = true ∧ F.gtB adxV (F.fin thresh) = true)) ∧
    (tradeSignal price emaV macdV sigV rsiV adxV thresh = TradeAction.HOLD ↔
      (buySignal price emaV macdV sigV rsiV adxV thresh = false ∧
        sellSignal price emaV macdV sigV rsiV adxV thresh = false)) ∧
    ¬(buySignal price emaV macdV sigV rsiV adxV thresh = true ∧
      sellSignal price emaV macdV sigV rsiV adxV thresh = true) := by
  have excl : ¬(buySignal price emaV macdV sigV rsiV adxV thresh = true ∧
      sellSignal price emaV macdV sigV rsiV adxV thresh = true) := by
    rintro ⟨hb, hs⟩
    simp only [buySignal, sellSignal, F.ltB_eq, Bool.and_eq_true] at hb hs
    have := F.gtB_asymm _ _ hb.1.1.1
    rw [hs.1.1.1] at this
    exact Bool.true_eq_false.mp this
  by_cases hb : buySignal price emaV macdV sigV rsiV adxV thresh = true
  · have hs : sellSignal price emaV macdV sigV rsiV adxV thresh = false := by
      by_cases h : sellSignal price emaV macdV sigV rsiV adxV thresh = true
      · exact absurd ⟨hb, h⟩ excl
      · simpa using h
    refine ⟨?_, ?_, ?_, excl⟩
    · simp only [tradeSignal, hb, if_true]
      simp only [buySignal, Bool.and_eq_true] at hb
      exact ⟨fun _ => ⟨hb.1.1.1, hb.1.1.2, hb.1.2, hb.2⟩, fun _ => trivial⟩
    · constructor
      · intro h
        simp [tradeSignal, hb] at h
      · intro h
        have : sellSignal price emaV macdV sigV rsiV adxV thresh = true := by
          simp only [sellSignal, Bool.and_eq_true]
          exact ⟨⟨⟨h.1, h.2.1⟩, h.2.2.1⟩, h.2.2.2⟩
        rw [this] at hs
        exact absurd hs (by simp)
    · constructor
      · intro h
        simp [tradeSignal, hb] at h
      · intro h
        rw [hb] at h
        exact absurd h.1 (by simp)
  · have hb' : buySignal price emaV macdV sigV rsiV adxV thresh = false := by simpa using hb
    by_cases hs : sellSignal price emaV macdV sigV rsiV adxV thresh = true
    · refine ⟨?_, ?_, ?_, excl⟩
      · constructor
        · intro h
          simp [tradeSignal, hb', hs] at h
        · intro h
          have : buySignal price emaV macdV sigV rsiV adxV thresh = true := by
            simp only [buySignal, Bool.and_eq_true]
            exact ⟨⟨⟨h.1, h.2.1⟩, h.2.2.1⟩, h.2.2.2⟩
          rw [this] at hb'
          exact absurd hb' (by simp)
      · simp only [tradeSignal, hb', hs, Bool.false_eq_true, if_false, if_true]
        simp only [sellSignal, F.ltB_eq, Bool.and_eq_true] at hs
        exact ⟨fun _ => ⟨hs.1.1.1, hs.1.1.2, hs.1.2, hs.2⟩, fun _ => trivial⟩
      · constructor
        · intro h
          simp [tradeSignal, hb', hs] at h
        · intro h
          rw [hs] at h
          exact absurd h.2 (by simp)
    · have hs' : sellSignal price emaV macdV sigV rsiV adxV thresh = false := by simpa using hs
      refine ⟨?_, ?_, ?_, excl⟩
      · constructor
        · intro h
          simp [tradeSignal, hb', hs'] at h
        · intro h
          have : buySignal price emaV macdV sigV rsiV adxV thresh = true := by
            simp only [buySignal, Bool.and_eq_true]
            exact ⟨⟨⟨h.1, h.2.1⟩, h.2.2.1⟩, h.2.2.2⟩
          rw [this] at hb'
          exact absurd hb' (by simp)
      · constructor
        · intro h
          simp [tradeSignal, hb', hs'] at h
        · intro h
          have : sellSignal price emaV macdV sigV rsiV adxV thresh = true := by
            simp only [sellSignal, Bool.and_eq_true]
            exact ⟨⟨⟨h.1, h.2.1⟩, h.2.2.1⟩, h.2.2.2⟩
          rw [this] at hs'
          exact absurd hs' (by simp)
      · exact ⟨fun _ => ⟨hb', hs'⟩, fun _ => by simp [tradeSignal, hb', hs']⟩

/-- The spec's reference EMA recurrence, continuation after the seed:
`ema[i] = ema[i-1] + alpha*(x[i] - ema[i-1])`. -/
def emaSpecGo (a prev : ℚ) : List ℚ → List ℚ
  | [] => []
  | x :: xs => (prev + a * (x - prev)) :: emaSpecGo a (prev + a * (x - prev)) xs

/-- The spec's reference EMA (§4.1): seeded with `ema[0] = x[0]`, then the
`alpha`-recurrence.  Stated from the spec's words, to be compared with the
pandas-based `ema` of the source. -/
def emaSpecRec (a : ℚ) : List ℚ → List ℚ
  | [] => []
  | x :: xs => x :: emaSpecGo a x xs

/-- With no `nan` gap (`oldWt = 1`) the pandas update step is exactly the
α-recurrence step. -/
theorem ewmStep_one_fin (a v q : ℚ) :
    ewmStep a 1 (F.fin v) (F.fin q) = F.fin (v + a * (q - v)) := by
  have h : (1 : ℚ) * (1 - a) + a = 1 := by ring
  simp only [ewmStep, F.mul_fin_fin, F.add_fin_fin, F.div_fin_fin, h]
  rw [if_neg one_ne_zero]
  congr 1
  field_simp
  ring

/-- Seeded pandas smoothing of a clean series is the α-recurrence,
element by element. -/
theorem ewmGo_fin_spec (a : ℚ) (xs : List ℚ) :
    ∀ v : ℚ, ewmGo a (some (F.fin v, 1)) (xs.map F.fin) = (emaSpecGo a v xs).map F.fin := by
  induction xs with
  | nil => intro v; simp [emaSpecGo]
  | cons x xs ih =>
      intro v
      simp only [List.map_cons, ewmGo_some_fin, ewmStep_one_fin, emaSpecGo, ih]

/-- **C8.** For every non-empty series and positive length, the pandas
span-based `ema` equals the spec's α-recurrence with `alpha = 2/(length+1)`
seeded at the first element, element by element. -/
theorem C8_ema_refines (series : List ℚ) (length : ℕ)
    (hne : series ≠ []) (hpos : 0 < length) :
    ema series length = (emaSpecRec (2 / ((length : ℚ) + 1)) series).map F.fin := by
  cases series with
  | nil => exact absurd rfl hne
  | cons x xs =>
      simp only [ema, ewmMeanF, List.map_cons, ewmGo_none_fin, emaSpecRec,
        ewmGo_fin_spec]

/-- Witness for C8 at the concrete series `[3, 5]` and length 50. -/
theorem C8_ema_refines_witness :
    ema [3, 5] 50 = (emaSpecRec (2 / (((50 : ℕ) : ℚ) + 1)) [3, 5]).map F.fin :=
  C8_ema_refines [3, 5] 50 (by simp) (by norm_num)

/-- **C5, counterexample.** On the rising series `[1, 2, 3]` the
Wilder-smoothed loss at position 2 is exactly zero, yet `rsi` returns 100
there, not 50: the 50 fallback only fires when gain and loss smoothing are
both zero (`rs` undefined), while a zero loss with positive gain makes `rs`
infinite and the RSI 100. -/
theorem C5_counterexample :
    (rsiDownS [1, 2, 3] 14).get? 2 = some (F.fin 0) ∧
    (rsi [1, 2, 3] 14).get? 2 = some (F.fin 100) := by
  norm_num [rsiDownS, rsi, rsiRS, rsiUpS, rsiDeltas, shift1, ewmMeanF, ewmStep]

/-- **C5, amended.** At every position where the Wilder-smoothed loss and
the Wilder-smoothed gain are both zero, the RSI is 50 (the neutral value)
rather than a division error. -/
theorem C5_rsi_neutral (close : List ℚ) (i : ℕ)
    (hup : (rsiUpS close 14).get? i = some (F.fin 0))
    (hdown : (rsiDownS close 14).get? i = some (F.fin 0)) :
    (rsi close 14).get? i = some (F.fin 50) := by
  have hrs : (rsiRS close 14).get? i = some F.nan := by
    rw [rsiRS, List.get?_zipWith_eq_some]
    exact ⟨F.fin 0, F.fin 0, hup, hdown, by norm_num⟩
  rw [rsi, List.get?_map, hrs]
  norm_num

/-- Witness for the amended C5 at the constant series `[5, 5, 5]`,
position 1. -/
theorem C5_rsi_neutral_witness : (rsi [5, 5, 5] 14).get? 1 = some (F.fin 50) :=
  C5_rsi_neutral [5, 5, 5] 1
    (by norm_num [rsiUpS, rsiDeltas, shift1, ewmMeanF, ewmStep])
    (by norm_num [rsiDownS, rsiDeltas, shift1, ewmMeanF, ewmStep])

/-- Nonnegative finite value. -/
def FinNN (x : F) : Prop := ∃ q, x = F.fin q ∧ 0 ≤ q

/-- `nan` or a nonnegative finite value: the elements fed to and produced
by the Wilder smoothings of the RSI. -/
def GoodNN (x : F) : Prop := x = F.nan ∨ FinNN x

/-- `nan`, `+inf`, or a nonnegative finite value: the possible shapes of
`rs = smoothed_gain / smoothed_loss`. -/
def GoodRS (x : F) : Prop := x = F.nan ∨ x = F.inf ∨ FinNN x

/-- Membership in a zipWith comes from members at a shared index. -/
theorem mem_zipWith {α β γ : Type} {f : α → β → γ} {as : List α} {bs : List β} {x : γ}
    (h : x ∈ List.zipWith f as bs) : ∃ a b, a ∈ as ∧ b ∈ bs ∧ x = f a b := by
  rw [List.mem_iff_get?] at h
  obtain ⟨i, hi⟩ := h
  rw [List.get?_zipWith_eq_some] at hi
  obtain ⟨a, b, ha, hb, hx⟩ := hi
  exact ⟨a, b, List.get?_mem ha, List.get?_mem hb, hx.symm⟩

/-- The pandas update step on finite inputs, with a nonzero renormalising
weight. -/
theorem ewmStep_fin (a w v q : ℚ) (h : w * (1 - a) + a ≠ 0) :
    ewmStep a w (F.fin v) (F.fin q) =
      F.fin ((w * (1 - a) * v + a * q) / (w * (1 - a) + a)) := by
  simp only [ewmStep, F.mul_fin_fin, F.add_fin_fin, F.div_fin_fin, if_neg h]

/-- Wilder smoothing preserves `nan`-or-nonnegative-finite elements, for
any smoothing constant in `(0, 1]`. -/
theorem ewmGo_goodNN (a : ℚ) (ha0 : 0 < a) (ha1 : a ≤ 1) :
    ∀ (xs : List F), (∀ x ∈ xs, GoodNN x) →
      ∀ (st : Option (F × ℚ)),
        (st = none ∨ ∃ v w, st = some (F.fin v, w) ∧ 0 ≤ v ∧ 0 ≤ w) →
        ∀ y ∈ ewmGo a st xs, GoodNN y := by
  intro xs
  induction xs with
  | nil =>
      intro _ st _ y hy
      simp at hy
  | cons x xs ih =>
      intro hmem st hst y hy
      have hx : GoodNN x := hmem x (by simp)
      have hxs : ∀ z ∈ xs, GoodNN z := fun z hz => hmem z (by simp [hz])
      rcases hst with hst | ⟨v, w, hst, hv, hw⟩
      · subst hst
        rcases hx with hx | ⟨q, hx, hq⟩
        · subst hx
          rw [ewmGo_none_nan] at hy
          rcases List.mem_cons.mp hy with hy | hy
          · exact Or.inl hy
          · exact ih hxs none (Or.inl rfl) y hy
        · subst hx
          rw [ewmGo_none_fin] at hy
          rcases List.mem_cons.mp hy with hy | hy
          · exact Or.inr ⟨q, hy, hq⟩
          · exact ih hxs _ (Or.inr ⟨q, 1, rfl, hq, zero_le_one⟩) y hy
      · subst hst
        have hwa : 0 ≤ w * (1 - a) := mul_nonneg hw (by linarith)
        have hden : 0 < w * (1 - a) + a := by linarith
        rcases hx with hx | ⟨q, hx, hq⟩
        · subst hx
          rw [ewmGo_some_nan] at hy
          rcases List.mem_cons.mp hy with hy | hy
          · exact Or.inr ⟨v, hy, hv⟩
          · exact ih hxs _ (Or.inr ⟨v, w * (1 - a), rfl, hv, hwa⟩) y hy
        · subst hx
          have hstep := ewmStep_fin a w v q (ne_of_gt hden)
          have hval : 0 ≤ (w * (1 - a) * v + a * q) / (w * (1 - a) + a) :=
            div_nonneg (by positivity) hden.le
          rw [ewmGo_some_fin, hstep] at hy
          rcases List.mem_cons.mp hy with hy | hy
          · exact Or.inr ⟨_, hy, hval⟩
          · exact ih hxs _ (Or.inr ⟨_, 1, rfl, hval, zero_le_one⟩) y hy

/-- The elements of `close.diff()` are `nan` or finite. -/
theorem rsiDeltas_shape (close : List ℚ) :
    ∀ x ∈ rsiDeltas close, x = F.nan ∨ ∃ q, x = F.fin q := by
  intro x hx
  obtain ⟨a, b, ha, hb, hfx⟩ := mem_zipWith hx
  obtain ⟨qa, _, ha⟩ := List.mem_map.mp ha
  subst ha
  rcases List.mem_cons.mp hb with hb | hb
  · subst hb
    subst hfx
    simp
  · obtain ⟨qb, _, hb⟩ := List.mem_map.mp hb
    subst hb
    subst hfx
    exact Or.inr ⟨qa - qb, by simp⟩

/-- Clipping below zero turns a `nan`-or-finite value into a
`nan`-or-nonnegative-finite one. -/
theorem clip0_goodNN (x : F) (hx : x = F.nan ∨ ∃ q, x = F.fin q) : GoodNN (F.clip0 x) := by
  rcases hx with hx | ⟨q, hx⟩ <;> subst hx
  · exact Or.inl rfl
  · exact Or.inr ⟨max q 0, rfl, le_max_right q 0⟩

/-- The gain smoothing produces `nan`-or-nonnegative-finite elements. -/
theorem rsiUpS_goodNN (close : List ℚ) : ∀ x ∈ rsiUpS close 14, GoodNN x := by
  intro x hx
  refine ewmGo_goodNN (1 / ((14 : ℕ) : ℚ)) (by norm_num) (by norm_num) _ ?_ none
    (Or.inl rfl) x hx
  intro z hz
  obtain ⟨d, hd, hz⟩ := List.mem_map.mp hz
  subst hz
  exact clip0_goodNN d (rsiDeltas_shape close d hd)

/-- The loss smoothing produces `nan`-or-nonnegative-finite elements. -/
theorem rsiDownS_goodNN (close : List ℚ) : ∀ x ∈ rsiDownS close 14, GoodNN x := by
  intro x hx
  refine ewmGo_goodNN (1 / ((14 : ℕ) : ℚ)) (by norm_num) (by norm_num) _ ?_ none
    (Or.inl rfl) x hx
  intro z hz
  obtain ⟨d, hd, hz⟩ := List.mem_map.mp hz
  subst hz
  refine clip0_goodNN d.neg ?_
  rcases rsiDeltas_shape close d hd with h | ⟨q, h⟩ <;> subst h
  · simp
  · exact Or.inr ⟨-q, by simp⟩

/-- The quotient of two `nan`-or-nonnegative-finite values is `nan`,
`+inf` or nonnegative finite. -/
theorem div_goodRS (x y : F) (hx : GoodNN x) (hy : GoodNN y) : GoodRS (F.div x y) := by
  rcases hx with hx | ⟨a, hx, ha⟩ <;> subst hx
  · exact Or.inl (F.div_nan_left y)
  rcases hy with hy | ⟨b, hy, hb⟩ <;> subst hy
  · exact Or.inl (F.div_nan_right (F.fin a))
  by_cases hb0 : b = 0
  · subst hb0
    rcases lt_or_eq_of_le ha with ha' | ha'
    · rw [F.div_fin_fin]
      simp only [if_pos rfl, if_pos ha']
      exact Or.inr (Or.inl rfl)
    · rw [F.div_fin_fin, ← ha']
      norm_num
      exact Or.inl rfl
  · rw [F.div_fin_fin, if_neg hb0]
    exact Or.inr (Or.inr ⟨a / b, rfl, div_nonneg ha (lt_of_le_of_ne hb (Ne.symm hb0)).le⟩)

/-- The final RSI transform sends every possible `rs` shape into `[0, 100]`. -/
theorem rsi_transform_bound (r : F) (hr : GoodRS r) :
    ∃ q, F.sub (F.fin 100) (F.fillna 50 (F.div (F.fin 100) (F.add (F.fin 1) r))) = F.fin q ∧
      0 ≤ q ∧ q ≤ 100 := by
  rcases hr with hr | hr | ⟨v, hr, hv⟩ <;> subst hr
  · exact ⟨50, by norm_num, by norm_num, by norm_num⟩
  · exact ⟨100, by norm_num, by norm_num, by norm_num⟩
  · have h1v : (0 : ℚ) < 1 + v := by linarith
    refine ⟨100 - 100 / (1 + v), ?_, ?_, ?_⟩
    · rw [F.add_fin_fin, F.div_fin_fin, if_neg (ne_of_gt h1v), F.fillna_fin, F.sub_fin_fin]
    · have : 100 / (1 + v) ≤ 100 / 1 :=
        div_le_div_of_nonneg_left (by norm_num) one_pos (by linarith)
      simp at this
      linarith
    · have : 0 ≤ 100 / (1 + v) := by positivity
      linarith

/-- A canonical strictly rising series: `start, start+1, ...` of length `n`. -/
def riseFrom (start : ℚ) : ℕ → List ℚ
  | 0 => []
  | n + 1 => start :: riseFrom (start + 1) n

/-- A canonical strictly falling series: `start, start-1, ...` of length `n`. -/
def fallFrom (start : ℚ) : ℕ → List ℚ
  | 0 => []
  | n + 1 => start :: fallFrom (start - 1) n

theorem riseFrom_dropLast (n : ℕ) : ∀ s : ℚ, (riseFrom s (n + 1)).dropLast = riseFrom s n := by
  induction n with
  | zero => intro s; rfl
  | succ n ih =>
      intro s
      show (s :: riseFrom (s + 1) (n + 1)).dropLast = s :: riseFrom (s + 1) n
      rw [List.dropLast_cons_of_ne_nil (by simp [riseFrom]), ih]

theorem fallFrom_dropLast (n : ℕ) : ∀ s : ℚ, (fallFrom s (n + 1)).dropLast = fallFrom s n := by
  induction n with
  | zero => intro s; rfl
  | succ n ih =>
      intro s
      show (s :: fallFrom (s - 1) (n + 1)).dropLast = s :: fallFrom (s - 1) n
      rw [List.dropLast_cons_of_ne_nil (by simp [fallFrom]), ih]

theorem riseFrom_diffs (n : ℕ) : ∀ s : ℚ,
    List.zipWith F.sub ((riseFrom (s + 1) n).map F.fin) ((riseFrom s n).map F.fin) =
      List.replicate n (F.fin 1) := by
  induction n with
  | zero => intro s; rfl
  | succ n ih =>
      intro s
      show F.sub (F.fin (s + 1)) (F.fin s) ::
          List.zipWith F.sub ((riseFrom (s + 1 + 1) n).map F.fin)
            ((riseFrom (s + 1) n).map F.fin) = _
      rw [ih (s + 1), F.sub_fin_fin]
      norm_num
      rfl

theorem fallFrom_diffs (n : ℕ) : ∀ s : ℚ,
    List.zipWith F.sub ((fallFrom (s - 1) n).map F.fin) ((fallFrom s n).map F.fin) =
      List.replicate n (F.fin (-1)) := by
  induction n with
  | zero => intro s; rfl
  | succ n ih =>
      intro s
      show F.sub (F.fin (s - 1)) (F.fin s) ::
          List.zipWith F.sub ((fallFrom (s - 1 - 1) n).map F.fin)
            ((fallFrom (s - 1) n).map F.fin) = _
      rw [ih (s - 1), F.sub_fin_fin]
      norm_num
      rfl

/-- `close.diff()` of the canonical rising series is `nan` then ones. -/
theorem rsiDeltas_riseFrom (s : ℚ) (n : ℕ) :
    rsiDeltas (riseFrom s (n + 1)) = F.nan :: List.replicate n (F.fin 1) := by
  unfold rsiDeltas shift1
  rw [riseFrom_dropLast]
  show F.sub (F.fin s) F.nan ::
      List.zipWith F.sub ((riseFrom (s + 1) n).map F.fin) ((riseFrom s n).map F.fin) = _
  rw [riseFrom_diffs, F.sub_nan_right]

/-- `close.diff()` of the canonical falling series is `nan` then minus-ones. -/
theorem rsiDeltas_fallFrom (s : ℚ) (n : ℕ) :
    rsiDeltas (fallFrom s (n + 1)) = F.nan :: List.replicate n (F.fin (-1)) := by
  unfold rsiDeltas shift1
  rw [fallFrom_dropLast]
  show F.sub (F.fin s) F.nan ::
      List.zipWith F.sub ((fallFrom (s - 1) n).map F.fin) ((fallFrom s n).map F.fin) = _
  rw [fallFrom_diffs, F.sub_nan_right]

/-- Seeded Wilder smoothing of a constant series is that constant. -/
theorem ewmGo_const (a c : ℚ) (n : ℕ) :
    ewmGo a (some (F.fin c, 1)) (List.replicate n (F.fin c)) = List.replicate n (F.fin c) := by
  induction n with
  | zero => simp
  | succ n ih =>
      rw [List.replicate_succ, ewmGo_some_fin, ewmStep_one_fin]
      have hc : c + a * (c - c) = c := by ring
      rw [hc, ih]

/-- Unseeded Wilder smoothing of a constant series is that constant. -/
theorem ewmGo_none_const (a c : ℚ) (n : ℕ) :
    ewmGo a none (List.replicate n (F.fin c)) = List.replicate n (F.fin c) := by
  cases n with
  | zero => simp
  | succ n =>
      rw [List.replicate_succ, ewmGo_none_fin, ewmGo_const]

/-- **C7.** RSI is bounded: every element of `rsi close 14` is a finite
value in `[0, 100]`; moreover on the canonical strictly rising series every
element after the seed is exactly 100, and on the canonical strictly
falling series every element after the seed is exactly 0 (the seed position
is the neutral 50, the `0/0` fallback). -/
theorem C7_rsi_bounds (close : List ℚ) (s : ℚ) (n : ℕ) :
    (∀ x ∈ rsi close 14, ∃ q, x = F.fin q ∧ 0 ≤ q ∧ q ≤ 100) ∧
    rsi (riseFrom s (n + 1)) 14 = F.fin 50 :: List.replicate n (F.fin 100) ∧
    rsi (fallFrom s (n + 1)) 14 = F.fin 50 :: List.replicate n (F.fin 0) := by
  refine ⟨?_, ?_, ?_⟩
  · intro x hx
    unfold rsi at hx
    obtain ⟨r, hr, hx⟩ := List.mem_map.mp hx
    subst hx
    obtain ⟨u, d, hu, hd, hr⟩ := mem_zipWith hr
    subst hr
    exact rsi_transform_bound _ (div_goodRS u d (rsiUpS_goodNN close u hu)
      (rsiDownS_goodNN close d hd))
  · have hup : rsiUpS (riseFrom s (n + 1)) 14 = F.nan :: List.replicate n (F.fin 1) := by
      unfold rsiUpS
      rw [rsiDeltas_riseFrom]
      show ewmMeanF _ (F.clip0 F.nan :: (List.replicate n (F.fin 1)).map F.clip0) = _
      rw [List.map_replicate]
      norm_num [ewmMeanF, ewmGo_none_const]
    have hdown : rsiDownS (riseFrom s (n + 1)) 14 = F.nan :: List.replicate n (F.fin 0) := by
      unfold rsiDownS
      rw [rsiDeltas_riseFrom]
      show ewmMeanF _
        (F.clip0 F.nan.neg :: (List.replicate n (F.fin 1)).map (fun d => F.clip0 d.neg)) = _
      rw [List.map_replicate]
      norm_num [ewmMeanF, ewmGo_none_const]
    unfold rsi rsiRS
    rw [hup, hdown]
    show (F.div F.nan F.nan ::
        List.zipWith F.div (List.replicate n (F.fin 1)) (List.replicate n (F.fin 0))).map _ = _
    rw [List.zipWith_replicate, min_self]
    norm_num [List.map_replicate]
  · have hup : rsiUpS (fallFrom s (n + 1)) 14 = F.nan :: List.replicate n (F.fin 0) := by
      unfold rsiUpS
      rw [rsiDeltas_fallFrom]
      show ewmMeanF _ (F.clip0 F.nan :: (List.replicate n (F.fin (-1))).map F.clip0) = _
      rw [List.map_replicate]
      norm_num [ewmMeanF, ewmGo_none_const]
    have hdown : rsiDownS (fallFrom s (n + 1)) 14 = F.nan :: List.replicate n (F.fin 1) := by
      unfold rsiDownS
      rw [rsiDeltas_fallFrom]
      show ewmMeanF _
        (F.clip0 F.nan.neg :: (List.replicate n (F.fin (-1))).map (fun d => F.clip0 d.neg)) = _
      rw [List.map_replicate]
      norm_num [ewmMeanF, ewmGo_none_const]
    unfold rsi rsiRS
    rw [hup, hdown]
    show (F.div F.nan F.nan ::
        List.zipWith F.div (List.replicate n (F.fin 0)) (List.replicate n (F.fin 1))).map _ = _
    rw [List.zipWith_replicate, min_self]
    norm_num [List.map_replicate]

/-- Finite value. -/
def IsFin (x : F) : Prop := ∃ q, x = F.fin q

/-- `nan` or finite: the possible shapes of shifted/differenced columns. -/
def FinOrNan (x : F) : Prop := x = F.nan ∨ IsFin x

theorem shift1_shape (xs : List ℚ) : ∀ x ∈ shift1 xs, FinOrNan x := by
  intro x hx
  rcases List.mem_cons.mp hx with hx | hx
  · exact Or.inl hx
  · obtain ⟨q, _, hq⟩ := List.mem_map.mp hx
    exact Or.inr ⟨q, hq.symm⟩

/-- The skipna row maximum of a finite value and a `nan`-or-finite value is
finite. -/
theorem maxsk_fin_left {x : F} (hx : IsFin x) {y : F} (hy : FinOrNan y) :
    IsFin (F.maxsk x y) := by
  obtain ⟨a, hx⟩ := hx
  subst hx
  rcases hy with hy | ⟨b, hy⟩ <;> subst hy
  · exact ⟨a, F.maxsk_nan_right _⟩
  · exact ⟨max a b, by rw [F.maxsk]⟩

/-- Every element of the true-range series is finite (the `high - low`
column always is, and the skipna maximum keeps it). -/
theorem trOf_fin (high low close : List ℚ) : ∀ x ∈ trOf high low close, IsFin x := by
  intro x hx
  obtain ⟨m, c, hm, hc, hx⟩ := mem_zipWith hx
  subst hx
  obtain ⟨a1, a2, h1, h2, hm⟩ := mem_zipWith hm
  subst hm
  have hf1 : IsFin a1 := by
    obtain ⟨h, l, _, _, h1⟩ := mem_zipWith h1
    exact ⟨h - l, h1⟩
  have hf2 : FinOrNan a2 := by
    obtain ⟨h, p, _, hp, h2⟩ := mem_zipWith h2
    subst h2
    rcases shift1_shape close p hp with hp | ⟨q, hp⟩ <;> subst hp
    · exact Or.inl (by rw [F.sub_nan_right, F.abs_nan])
    · exact Or.inr ⟨|h - q|, by rw [F.sub_fin_fin, F.abs]⟩
  have hf3 : FinOrNan c := by
    obtain ⟨l, p, _, hp, hc⟩ := mem_zipWith hc
    subst hc
    rcases shift1_shape close p hp with hp | ⟨q, hp⟩ <;> subst hp
    · exact Or.inl (by rw [F.sub_nan_right, F.abs_nan])
    · exact Or.inr ⟨|l - q|, by rw [F.sub_fin_fin, F.abs]⟩
  exact maxsk_fin_left (maxsk_fin_left hf1 hf2) hf3

/-- The `up`/`down` move columns are `nan`-or-finite. -/
theorem upOf_shape (high : List ℚ) : ∀ x ∈ upOf high, FinOrNan x := by
  intro x hx
  obtain ⟨h, p, hh, hp, hx⟩ := mem_zipWith hx
  subst hx
  obtain ⟨q, _, hh⟩ := List.mem_map.mp hh
  subst hh
  rcases shift1_shape high p hp with hp | ⟨r, hp⟩ <;> subst hp
  · exact Or.inl (F.sub_nan_right _)
  · exact Or.inr ⟨q - r, F.sub_fin_fin q r⟩

theorem downOf_shape (low : List ℚ) : ∀ x ∈ downOf low, FinOrNan x := by
  intro x hx
  obtain ⟨p, l, hp, hl, hx⟩ := mem_zipWith hx
  subst hx
  obtain ⟨q, _, hl⟩ := List.mem_map.mp hl
  subst hl
  rcases shift1_shape low p hp with hp | ⟨r, hp⟩ <;> subst hp
  · exact Or.inl (F.sub_nan_left _)
  · exact Or.inr ⟨r - q, F.sub_fin_fin r q⟩

/-- A directional-movement cell (`np.where` guarded) is a nonnegative
finite value. -/
theorem dm_cell_shape (u d : F) (hu : FinOrNan u) :
    ∃ q, (if u.gtB d && u.gtB (F.fin 0) then u else F.fin 0) = F.fin q ∧ 0 ≤ q := by
  by_cases hc : (u.gtB d && u.gtB (F.fin 0)) = true
  · have h2 : u.gtB (F.fin 0) = true := ((Bool.and_eq_true _ _) ▸ hc).2
    rcases hu with hu | ⟨q, hu⟩ <;> subst hu
    · simp at h2
    · rw [if_pos hc]
      refine ⟨q, rfl, ?_⟩
      rw [F.gtB_fin_fin] at h2
      by_cases hq : 0 < q
      · exact hq.le
      · simp [hq] at h2
  · rw [if_neg hc]
    exact ⟨0, rfl, le_refl 0⟩

/-- Every element of `p_dm` is a nonnegative finite value. -/
theorem pdmOf_shape (high low : List ℚ) : ∀ x ∈ pdmOf high low, FinNN x := by
  intro x hx
  obtain ⟨u, d, hu, _, hx⟩ := mem_zipWith hx
  subst hx
  exact dm_cell_shape u d (upOf_shape high u hu)

/-- Every element of `m_dm` is a nonnegative finite value. -/
theorem mdmOf_shape (high low : List ℚ) : ∀ x ∈ mdmOf high low, FinNN x := by
  intro x hx
  obtain ⟨u, d, _, hd, hx⟩ := mem_zipWith hx
  subst hx
  exact dm_cell_shape d u (downOf_shape low d hd)

/-- Wilder smoothing keeps pure finiteness (inputs with no `nan` at all). -/
theorem ewmGo_fin (a : ℚ) (ha0 : 0 < a) (ha1 : a ≤ 1) :
    ∀ (xs : List F), (∀ x ∈ xs, IsFin x) →
      ∀ (v w : ℚ), 0 ≤ w → ∀ y ∈ ewmGo a (some (F.fin v, w)) xs, IsFin y := by
  intro xs
  induction xs with
  | nil => intro _ v w _ y hy; simp at hy
  | cons x xs ih =>
      intro hmem v w hw y hy
      obtain ⟨q, hq⟩ := hmem x (by simp)
      subst hq
      have hden : 0 < w * (1 - a) + a := by
        have : 0 ≤ w * (1 - a) := mul_nonneg hw (by linarith)
        linarith
      rw [ewmGo_some_fin, ewmStep_fin a w v q (ne_of_gt hden)] at hy
      rcases List.mem_cons.mp hy with hy | hy
      · exact ⟨_, hy⟩
      · exact ih (fun z hz => hmem z (by simp [hz])) _ 1 zero_le_one y hy

/-- Wilder smoothing of an all-finite series is all-finite. -/
theorem ewmMeanF_fin (a : ℚ) (ha0 : 0 < a) (ha1 : a ≤ 1) (xs : List F)
    (hmem : ∀ x ∈ xs, IsFin x) : ∀ y ∈ ewmMeanF a xs, IsFin y := by
  cases xs with
  | nil => intro y hy; simp [ewmMeanF] at hy
  | cons x xs =>
      obtain ⟨q, hq⟩ := hmem x (by simp)
      subst hq
      intro y hy
      rw [ewmMeanF, ewmGo_none_fin] at hy
      rcases List.mem_cons.mp hy with hy | hy
      · exact ⟨q, hy⟩
      · exact ewmGo_fin a ha0 ha1 xs (fun z hz => hmem z (by simp [hz])) q 1 zero_le_one y hy

/-- Wilder smoothing keeps `nan`-or-finite elements (the shape of the `dx`
series). -/
theorem ewmGo_finOrNan (a : ℚ) (ha0 : 0 < a) (ha1 : a ≤ 1) :
    ∀ (xs : List F), (∀ x ∈ xs, FinOrNan x) →
      ∀ (st : Option (F × ℚ)),
        (st = none ∨ ∃ v w, st = some (F.fin v, w) ∧ 0 ≤ w) →
        ∀ y ∈ ewmGo a st xs, FinOrNan y := by
  intro xs
  induction xs with
  | nil => intro _ st _ y hy; cases st with
      | none => simp at hy
      | some p => cases p; simp at hy
  | cons x xs ih =>
      intro hmem st hst y hy
      have hx : FinOrNan x := hmem x (by simp)
      have hxs : ∀ z ∈ xs, FinOrNan z := fun z hz => hmem z (by simp [hz])
      rcases hst with hst | ⟨v, w, hst, hw⟩
      · subst hst
        rcases hx with hx | ⟨q, hx⟩ <;> subst hx
        · rw [ewmGo_none_nan] at hy
          rcases List.mem_cons.mp hy with hy | hy
          · exact Or.inl hy
          · exact ih hxs none (Or.inl rfl) y hy
        · rw [ewmGo_none_fin] at hy
          rcases List.mem_cons.mp hy with hy | hy
          · exact Or.inr ⟨q, hy⟩
          · exact ih hxs _ (Or.inr ⟨q, 1, rfl, zero_le_one⟩) y hy
      · subst hst
        have hwa : 0 ≤ w * (1 - a) := mul_nonneg hw (by linarith)
        have hden : 0 < w * (1 - a) + a := by linarith
        rcases hx with hx | ⟨q, hx⟩ <;> subst hx
        · rw [ewmGo_some_nan] at hy
          rcases List.mem_cons.mp hy with hy | hy
          · exact Or.inr ⟨v, hy⟩
          · exact ih hxs _ (Or.inr ⟨v, w * (1 - a), rfl, hwa⟩) y hy
        · rw [ewmGo_some_fin, ewmStep_fin a w v q (ne_of_gt hden)] at hy
          rcases List.mem_cons.mp hy with hy | hy
          · exact Or.inr ⟨_, hy⟩
          · exact ih hxs _ (Or.inr ⟨_, 1, rfl, zero_le_one⟩) y hy

/-- Wilder smoothing of an all-nonnegative-finite series is
all-nonnegative-finite. -/
theorem ewmMeanF_finNN (a : ℚ) (ha0 : 0 < a) (ha1 : a ≤ 1) (xs : List F)
    (hmem : ∀ x ∈ xs, FinNN x) : ∀ y ∈ ewmMeanF a xs, FinNN y := by
  intro y hy
  have hfin : IsFin y :=
    ewmMeanF_fin a ha0 ha1 xs (fun x hx => (hmem x hx).elim fun q hq => ⟨q, hq.1⟩) y hy
  have hgood : GoodNN y :=
    ewmGo_goodNN a ha0 ha1 xs (fun x hx => Or.inr (hmem x hx)) none (Or.inl rfl) y hy
  rcases hgood with hnan | hfn
  · obtain ⟨q, hq⟩ := hfin
    rw [hq] at hnan
    exact absurd hnan (by simp)
  · exact hfn

/-- Every element of `dx` is `nan` or finite — never an infinity: at each
index, `+DI` and `-DI` are built from nonnegative numerators over the same
smoothed true range, so the quotient defining `dx` is never a nonzero
finite (or infinite) numerator over a vanishing denominator. -/
theorem dxOf_shape (high low close : List ℚ) :
    ∀ x ∈ dxOf high low close 14, FinOrNan x := by
  intro x hx
  rw [List.mem_iff_get?] at hx
  obtain ⟨i, hi⟩ := hx
  rw [dxOf, List.get?_zipWith_eq_some] at hi
  obtain ⟨P, M, hP, hM, hx⟩ := hi
  rw [pdiOf, List.get?_zipWith_eq_some] at hP
  obtain ⟨pm, t, hpm, ht, hP⟩ := hP
  rw [mdiOf, List.get?_zipWith_eq_some] at hM
  obtain ⟨mm, t2, hmm, ht2, hM⟩ := hM
  have htt : t2 = t := by
    rw [ht] at ht2
    exact (Option.some_inj.mp ht2).symm
  rw [htt] at hM
  obtain ⟨pq, hpmeq, hpq0⟩ : FinNN pm :=
    ewmMeanF_finNN _ (by norm_num) (by norm_num) _ (pdmOf_shape high low) pm
      (List.get?_mem hpm)
  obtain ⟨mq, hmmeq, hmq0⟩ : FinNN mm :=
    ewmMeanF_finNN _ (by norm_num) (by norm_num) _ (mdmOf_shape high low) mm
      (List.get?_mem hmm)
  obtain ⟨tq, hteq⟩ : IsFin t :=
    ewmMeanF_fin (1 / ((14 : ℕ) : ℚ)) (by norm_num) (by norm_num) (trOf high low close)
      (trOf_fin high low close) t (List.get?_mem (by rw [trSOf] at ht; exact ht))
  subst hpmeq
  subst hmmeq
  subst hteq
  subst hx
  subst hP
  subst hM
  by_cases ht0 : tq = 0
  · subst ht0
    rcases lt_or_eq_of_le hpq0 with hp | hp <;> rcases lt_or_eq_of_le hmq0 with hm | hm
    · exact Or.inl (by norm_num [hp, hm])
    · exact Or.inl (by rw [← hm]; norm_num [hp])
    · exact Or.inl (by rw [← hp]; norm_num [hm])
    · exact Or.inl (by rw [← hp, ← hm]; norm_num)
  · rw [F.div_fin_fin, if_neg ht0, F.div_fin_fin, if_neg ht0, F.mul_fin_fin, F.mul_fin_fin,
      F.sub_fin_fin]
    rw [show (F.fin (100 * (pq / tq) - 100 * (mq / tq))).abs =
      F.fin |100 * (pq / tq) - 100 * (mq / tq)| from rfl]
    rw [F.mul_fin_fin, F.add_fin_fin, F.div_fin_fin]
    by_cases hs : 100 * (pq / tq) + 100 * (mq / tq) = 0
    · have hpm0 : pq = 0 ∧ mq = 0 := by
        have h100 : (100 : ℚ) * (pq + mq) / tq = 0 := by
          field_simp at hs ⊢
          linarith
        have hsum : pq + mq = 0 := by
          rcases div_eq_zero_iff.mp h100 with h | h
          · have : pq + mq = 0 := by linarith [mul_eq_zero.mp h]
            exact this
          · exact absurd h ht0
        constructor <;> linarith
      rw [if_pos hs, hpm0.1, hpm0.2]
      left
      norm_num
    · rw [if_neg hs]
      exact Or.inr ⟨_, rfl⟩

theorem dropLast_replicate_succ (m : ℕ) (q : ℚ) :
    (List.replicate (m + 1) q).dropLast = List.replicate m q := by
  rw [List.replicate_succ', List.dropLast_concat]

theorem shift1_replicate (m : ℕ) (q : ℚ) :
    shift1 (List.replicate (m + 1) q) = F.nan :: List.replicate m (F.fin q) := by
  unfold shift1
  rw [dropLast_replicate_succ, List.map_replicate]

/-- Unseeded Wilder smoothing of an all-`nan` series stays all-`nan`. -/
theorem ewmGo_none_nan_replicate (a : ℚ) (m : ℕ) :
    ewmGo a none (List.replicate m F.nan) = List.replicate m F.nan := by
  induction m with
  | zero => simp
  | succ m ih => rw [List.replicate_succ, ewmGo_none_nan, ih]

/-- The whole ADX pipeline on a degenerate constant zero-range series
yields all zeros. -/
theorem adx_replicate (n : ℕ) (q : ℚ) :
    adx (List.replicate n q) (List.replicate n q) (List.replicate n q) 14 =
      List.replicate n (F.fin 0) := by
  cases n with
  | zero => rfl
  | succ m =>
      have hshift : shift1 (List.replicate (m + 1) q) = F.nan :: List.replicate m (F.fin q) :=
        shift1_replicate m q
      have ha1 : trA1 (List.replicate (m + 1) q) (List.replicate (m + 1) q) =
          F.fin 0 :: List.replicate m (F.fin 0) := by
        unfold trA1
        rw [List.zipWith_replicate, min_self]
        norm_num [List.replicate_succ]
      have ha2 : trA2 (List.replicate (m + 1) q) (List.replicate (m + 1) q) =
          F.nan :: List.replicate m (F.fin 0) := by
        unfold trA2
        rw [hshift, List.replicate_succ, List.zipWith_cons_cons, List.zipWith_replicate,
          min_self]
        norm_num
      have ha3 : trA3 (List.replicate (m + 1) q) (List.replicate (m + 1) q) =
          F.nan :: List.replicate m (F.fin 0) := by
        unfold trA3
        rw [hshift, List.replicate_succ, List.zipWith_cons_cons, List.zipWith_replicate,
          min_self]
        norm_num
      have htr : trOf (List.replicate (m + 1) q) (List.replicate (m + 1) q)
          (List.replicate (m + 1) q) = F.fin 0 :: List.replicate m (F.fin 0) := by
        unfold trOf
        rw [ha1, ha2, ha3, List.zipWith_cons_cons, List.zipWith_replicate, min_self,
          List.zipWith_cons_cons, List.zipWith_replicate, min_self]
        norm_num
      have hup : upOf (List.replicate (m + 1) q) = F.nan :: List.replicate m (F.fin 0) := by
        unfold upOf
        rw [hshift, List.map_replicate, List.replicate_succ, List.zipWith_cons_cons,
          List.zipWith_replicate, min_self]
        norm_num
      have hdown : downOf (List.replicate (m + 1) q) = F.nan :: List.replicate m (F.fin 0) := by
        unfold downOf
        rw [hshift, List.map_replicate, List.replicate_succ, List.zipWith_cons_cons,
          List.zipWith_replicate, min_self]
        norm_num
      have hpdm : pdmOf (List.replicate (m + 1) q) (List.replicate (m + 1) q) =
          F.fin 0 :: List.replicate m (F.fin 0) := by
        unfold pdmOf
        rw [hup, hdown, List.zipWith_cons_cons, List.zipWith_replicate, min_self]
        norm_num
      have hmdm : mdmOf (List.replicate (m + 1) q) (List.replicate (m + 1) q) =
          F.fin 0 :: List.replicate m (F.fin 0) := by
        unfold mdmOf
        rw [hup, hdown, List.zipWith_cons_cons, List.zipWith_replicate, min_self]
        norm_num
      have hconst : ∀ xs : List F, xs = F.fin 0 :: List.replicate m (F.fin 0) →
          ewmMeanF (1 / ((14 : ℕ) : ℚ)) xs = F.fin 0 :: List.replicate m (F.fin 0) := by
        intro xs hxs
        subst hxs
        rw [ewmMeanF, ewmGo_none_fin, ewmGo_const]
      have htrs : trSOf (List.replicate (m + 1) q) (List.replicate (m + 1) q)
          (List.replicate (m + 1) q) 14 = F.fin 0 :: List.replicate m (F.fin 0) := by
        unfold trSOf
        rw [htr]
        exact hconst _ rfl
      have hpdi : pdiOf (List.replicate (m + 1) q) (List.replicate (m + 1) q)
          (List.replicate (m + 1) q) 14 = F.nan :: List.replicate m F.nan := by
        unfold pdiOf
        rw [hpdm, hconst _ rfl, htrs, List.zipWith_cons_cons, List.zipWith_replicate,
          min_self]
        norm_num
      have hmdi : mdiOf (List.replicate (m + 1) q) (List.replicate (m + 1) q)
          (List.replicate (m + 1) q) 14 = F.nan :: List.replicate m F.nan := by
        unfold mdiOf
        rw [hmdm, hconst _ rfl, htrs, List.zipWith_cons_cons, List.zipWith_replicate,
          min_self]
        norm_num
      have hdx : dxOf (List.replicate (m + 1) q) (List.replicate (m + 1) q)
          (List.replicate (m + 1) q) 14 = F.nan :: List.replicate m F.nan := by
        unfold dxOf
        rw [hpdi, hmdi, List.zipWith_cons_cons, List.zipWith_replicate, min_self]
        norm_num
      unfold adx
      rw [hdx]
      show (ewmGo _ none (F.nan :: List.replicate m F.nan)).map (F.fillna 0) = _
      rw [ewmGo_none_nan, ewmGo_none_nan_replicate, List.map_cons, List.map_replicate]
      norm_num
      rw [List.replicate_succ]

/-- **C6.** ADX is total: for every input series (aligned column lists of
any contents), every element of `adx` is a finite value — never `nan` and
never an infinity — and on a degenerate zero-range constant series of any
length the output is identically 0. -/
theorem C6_adx_total (high low close : List ℚ) (n : ℕ) (q : ℚ) :
    (∀ x ∈ adx high low close 14, IsFin x) ∧
    adx (List.replicate n q) (List.replicate n q) (List.replicate n q) 14 =
      List.replicate n (F.fin 0) := by
  refine ⟨?_, adx_replicate n q⟩
  intro x hx
  unfold adx at hx
  obtain ⟨y, hy, hx⟩ := List.mem_map.mp hx
  subst hx
  have hyshape : FinOrNan y :=
    ewmGo_finOrNan (1 / ((14 : ℕ) : ℚ)) (by norm_num) (by norm_num) _
      (dxOf_shape high low close) none (Or.inl rfl) y hy
  rcases hyshape with hy' | ⟨r, hy'⟩ <;> subst hy'
  · exact ⟨0, by rw [F.fillna_nan]⟩
  · exact ⟨r, by rw [F.fillna_fin]⟩

@[simp] theorem ewmGo_length (a : ℚ) :
    ∀ (xs : List F) (st : Option (F × ℚ)), (ewmGo a st xs).length = xs.length := by
  intro xs
  induction xs with
  | nil => intro st; simp
  | cons x xs ih =>
      intro st
      cases st with
      | none =>
          by_cases hx : x = F.nan <;> simp [ewmGo, hx, ih]
      | some p =>
          cases p with
          | mk avg w => by_cases hx : x = F.nan <;> simp [ewmGo, hx, ih]

@[simp] theorem ewmMeanF_length (a : ℚ) (xs : List F) :
    (ewmMeanF a xs).length = xs.length := ewmGo_length a xs none

@[simp] theorem shift1_length (xs : List ℚ) : (shift1 xs).length = xs.length - 1 + 1 := by
  simp [shift1]

/-- **C9, counterexample.** On the empty series every indicator function
returns the empty output series — an ordinary value, not a failure: no
`InsufficientDataError` (or any other error signal) exists in the indicator
code, and timestamps are never examined. -/
theorem C9_empty_no_failure :
    ema [] 50 = [] ∧ rsi [] 14 = [] ∧ macd [] = ([], []) ∧ adx [] [] [] 14 = [] :=
  ⟨rfl, rfl, rfl, rfl⟩

/-- **C9, amended.** The indicator functions are deterministic total pure
functions: on every input (aligned columns), each returns an output series
of exactly the input's length — in particular the empty series yields the
empty output, not an error.  The insufficient-data guard lives in
`run_once` instead, which on a series shorter than 50 bars terminates
before any broker call, any staleness report, and any state access, leaving
the state file untouched. -/
theorem C9_indicators_total (close high low : List ℚ) (p : RunInput)
    (h1 : high.length = close.length) (h2 : low.length = close.length)
    (hshort : p.close.length < 50) :
    (ema close 50).length = close.length ∧
    (rsi close 14).length = close.length ∧
    (macd close).1.length = close.length ∧
    (macd close).2.length = close.length ∧
    (adx high low close 14).length = close.length ∧
    (runOnce p).events = [] ∧ (runOnce p).staleWarned = false ∧
    (runOnce p).state = p.state := by
  refine ⟨?_, ?_, ?_, ?_, ?_, ?_, ?_, ?_⟩
  · simp [ema]
  · simp [rsi, rsiRS, rsiUpS, rsiDownS, rsiDeltas]
    omega
  · simp [macd]
  · simp [macd]
  · simp [adx, dxOf, pdiOf, mdiOf, trSOf, trOf, trA1, trA2, trA3, upOf, downOf,
      pdmOf, mdmOf, h1, h2]
    omega
  · simp [runOnce, hshort]
  · simp [runOnce, hshort]
  · simp [runOnce, hshort]

/-- A concrete short input for the C9 witness: two candles, no position,
missing state file. -/
def shortInput : RunInput :=
  { symbol := "GME", lastTs := "t", high := [1, 2], low := [1, 2], close := [1, 2],
    nowUtc := 0, lastTsUtc := 0, adxThresh := 20, qty := 250, posQty := none,
    closeOk := true, submitOk := true, state := none }

/-- Witness for the amended C9 at the two-candle series `[1, 2]`. -/
theorem C9_indicators_total_witness :
    (ema [1, 2] 50).length = ([1, 2] : List ℚ).length ∧
    (rsi [1, 2] 14).length = ([1, 2] : List ℚ).length ∧
    (macd [1, 2]).1.length = ([1, 2] : List ℚ).length ∧
    (macd [1, 2]).2.length = ([1, 2] : List ℚ).length ∧
    (adx [1, 2] [1, 2] [1, 2] 14).length = ([1, 2] : List ℚ).length ∧
    (runOnce shortInput).events = [] ∧ (runOnce shortInput).staleWarned = false ∧
    (runOnce shortInput).state = shortInput.state :=
  C9_indicators_total [1, 2] [1, 2] [1, 2] shortInput rfl rfl (by norm_num [shortInput])

theorem riseFrom_length : ∀ (n : ℕ) (s : ℚ), (riseFrom s n).length = n := by
  intro n
  induction n with
  | zero => intro s; rfl
  | succ n ih => intro s; simp [riseFrom, ih]

/-- A concrete flip input for the C4 witness: a steadily rising 50-candle
series that fires the LONG signal while the broker holds a short position,
with the close request failing (best-effort) and the submission succeeding. -/
def flipInput : RunInput :=
  { symbol := "GME", lastTs := "2024-01-01", high := riseFrom 101 50, low := riseFrom 99 50,
    close := riseFrom 100 50, nowUtc := 0, lastTsUtc := 0, adxThresh := 20, qty := 250,
    posQty := some (-5), closeOk := false, submitOk := true, state := none }

set_option maxHeartbeats 4000000 in
theorem flipInput_buy : buyOf flipInput = true := by
  norm_num [buyOf, buySignal, priceOf, emaLastOf, rsiLastOf, macdLastOf, sigLastOf,
    adxLastOf, flipInput, ema, rsi, rsiRS, rsiUpS, rsiDownS, rsiDeltas, macd, adx, dxOf,
    pdiOf, mdiOf, trSOf, trOf, trA1, trA2, trA3, upOf, downOf, pdmOf, mdmOf, shift1,
    ewmMeanF, ewmStep, riseFrom]

theorem flipInput_action : actionOf flipInput ≠ TradeAction.HOLD := by
  have hlong : inLongOf flipInput = false := by norm_num [inLongOf, flipInput]
  simp [actionOf, flipInput_buy, hlong]

/-- Witness for C4 at the concrete flip input. -/
theorem C4_flip_order_witness :
    (runOnce flipInput).events =
      [Event.getPos, Event.closePos flipInput.closeOk,
        Event.submit (sideOf flipInput) flipInput.qty flipInput.submitOk] ++
        (if flipInput.submitOk = true then [Event.writeState (barKey flipInput)] else []) ∧
    (runOnce flipInput).state =
      (if flipInput.submitOk = true then some (barKey flipInput) else flipInput.state) :=
  C4_flip_order flipInput (by simp [flipInput, riseFrom_length])
    (by simp [flipInput]) flipInput_action (by simp [flipInput])

/-- A concrete stale input for the C10 witness: 50 constant candles whose
last timestamp lies far behind the wall clock. -/
def staleInput : RunInput :=
  { symbol := "GME", lastTs := "t", high := List.replicate 50 5, low := List.replicate 50 5,
    close := List.replicate 50 5, nowUtc := 100000, lastTsUtc := 0, adxThresh := 20,
    qty := 250, posQty := none, closeOk := true, submitOk := true, state := none }

/-- Witness for C10 at the concrete stale input. -/
theorem C10_stale_advisory_witness :
    (runOnce staleInput).staleWarned = true ∧
    (runOnce { staleInput with nowUtc := 0 }).events = (runOnce staleInput).events ∧
    (runOnce { staleInput with nowUtc := 0 }).state = (runOnce staleInput).state :=
  C10_stale_advisory staleInput 0 (by simp [staleInput])
    (by norm_num [staleInput, lagMinutes])
